import Mathlib

set_option autoImplicit false

/-! Shallow embedding of the per-session coalescing sender queue
(`src/wsd/SenderQueue.hpp`).  The queue operations `enqueue`, `dequeue`,
`size`, `dumpState` and the rule engine `deduplicate` are translated from the
source.  The message observations they consume (`TileDesc::parse`,
`TileDesc::equalityHash`, `Message::contains`, the JSON `viewId` extraction
and `getAbbreviatedMessage`) live in parts of the repository that are not
among the provided sources; each of those is modelled from the spec and
marked as such.  A C++ exception is modelled by an `Except` error value; in
`deduplicate` and `enqueue` the error carries the queue contents at the
moment the exception leaves the function. -/

/-- Modelled from the spec: a tile descriptor, the structured metadata
identifying a renderable region (position, zoom, part) carried in a `tile:`
message's first line.  The concrete `TileDesc` class is not among the
provided sources. -/
structure TileDesc where
  part : Nat
  width : Nat
  height : Nat
  tilePosX : Nat
  tilePosY : Nat
  tileWidth : Nat
  tileHeight : Nat
  deriving DecidableEq, Repr

/-- Modelled from the spec: the position-identity hash, a cheap pure function
of the descriptor used to pre-filter full equality checks.  As in the source
tree, the hash covers the position fields but not every field that full
descriptor equality compares (here it omits `tileHeight`), so two distinct
descriptors can share a hash. -/
def TileDesc.equalityHash (t : TileDesc) : Nat :=
  (t.part + 131 * t.width + 257 * t.height + 389 * t.tilePosX
      + 521 * t.tilePosY + 641 * t.tileWidth) % 2 ^ 32

/-- First whitespace-delimited token of a character list. -/
def tokenOf : List Char → List Char
  | [] => []
  | c :: cs => if c = ' ' then [] else c :: tokenOf cs

/-- Does the second list start with the first one? -/
def startsWithC : List Char → List Char → Bool
  | [], _ => true
  | _ :: _, [] => false
  | p :: ps, c :: cs => p == c && startsWithC ps cs

/-- Substring containment on character lists (models `Message::contains`). -/
def hasSub (pat : List Char) : List Char → Bool
  | [] => pat.isEmpty
  | c :: cs => startsWithC pat (c :: cs) || hasSub pat cs

/-- Modelled from the spec: the message observations the queue uses.
`payload` is the whole message data and `firstLine` its first line.
`tileParse` holds the result of `TileDesc::parse` on `firstLine`; `none`
models a parse failure, which in the source is a thrown exception.
`viewIdParse` holds the result of parsing the payload as JSON and reading its
`viewId` field; `none` again models a thrown parse failure. -/
structure Msg where
  payload : String
  firstLine : String
  isBinary : Bool
  id : String
  tileParse : Option TileDesc
  viewIdParse : Option String
  deriving DecidableEq, Repr

/-- The first whitespace-delimited token of the message's first line
(`Message::firstToken`, also the notion compared by `firstTokenMatches`). -/
def Msg.firstToken (m : Msg) : String := String.mk (tokenOf m.firstLine.data)

/-- The marker substring looked for in `progress:` messages
(`static const std::string setvalueTag`). -/
def setvalueTag : String := "\"id\":\"setvalue\""

/-- Does the message payload contain the `setvalue` marker substring
(`item->contains(setvalueTag)`)? -/
def Msg.containsTag (m : Msg) : Bool := hasSub setvalueTag.data m.payload.data

/-- A queued message together with its cached position hash
(`Message::_hash`, written through `setHash` during tile deduplication and
`0` until then). -/
structure Entry where
  msg : Msg
  hash : Nat
  deriving DecidableEq, Repr

/-- Remove the first element satisfying `p`, if any: the `std::find_if` plus
`_queue.erase(pos)` pattern used by `deduplicate`. -/
def eraseFirstB {α : Type} (p : α → Bool) : List α → List α
  | [] => []
  | a :: as => if p a then as else a :: eraseFirstB p as

/-- Remove the first element accepted by a fallible predicate.  An `.error`
result models an exception thrown inside the `std::find_if` scan, before any
erase has happened. -/
def eraseFirstE {α : Type} (p : α → Except Unit Bool) : List α → Except Unit (List α)
  | [] => .ok []
  | a :: as =>
    match p a with
    | .error e => .error e
    | .ok true => .ok as
    | .ok false =>
      match eraseFirstE p as with
      | .error e => .error e
      | .ok as2 => .ok (a :: as2)

/-- The `find_if` lambda of the `tile:` branch: token gate, cheap hash gate,
then full descriptor equality (the hash-collision case logs and returns
false).  Parsing the queued message's first line can throw. -/
def tilePred (newTile : TileDesc) (newTilePosHash : Nat) (cur : Entry) : Except Unit Bool :=
  if cur.msg.firstToken ≠ "tile:" then .ok false
  else if newTilePosHash ≠ cur.hash then .ok false
  else
    match cur.msg.tileParse with
    | none => .error ()
    | some t => .ok (decide (newTile = t))

/-- The `find_if` lambda of the `invalidatecursor:` / `setpart:` branch:
first token equals the incoming command. -/
def cursorMatch (command : String) (e : Entry) : Bool := e.msg.firstToken == command

/-- The `find_if` lambda of the `progress:` branch: same token and the
`setvalue` marker present. -/
def progMatch (command : String) (e : Entry) : Bool :=
  e.msg.firstToken == command && e.msg.containsTag

/-- The `find_if` lambda of the `invalidateviewcursor:` branch: same token
and equal `viewId`; JSON-parsing the queued message can throw. -/
def viewPred (viewId : String) (cur : Entry) : Except Unit Bool :=
  if cur.msg.firstToken = "invalidateviewcursor:" then
    match cur.msg.viewIdParse with
    | none => .error ()
    | some v => .ok (decide (viewId = v))
  else .ok false

/-- Translation of `SenderQueue::deduplicate`.  The `.ok` result carries the
queue after any removal, the hash written onto the incoming item (`setHash`;
`0` when the item's hash is untouched) and the function's boolean return
value (the source returns `true` on every path).  An `.error` result models
an exception leaving `deduplicate` and carries the queue as it stands at that
moment; no erase has happened on any throwing path of the source. -/
def deduplicate (item : Msg) (q : List Entry) : Except (List Entry) (List Entry × Nat × Bool) :=
  let command := item.firstToken
  if command = "tile:" then
    match item.tileParse with
    | none => .error q
    | some newTile =>
      let newTilePosHash := newTile.equalityHash
      match eraseFirstE (tilePred newTile newTilePosHash) q with
      | .error _ => .error q
      | .ok q2 => .ok (q2, newTilePosHash, true)
  else if command = "invalidatecursor:" ∨ command = "setpart:" then
    .ok (eraseFirstB (cursorMatch command) q, 0, true)
  else if command = "progress:" then
    if item.containsTag then
      .ok (eraseFirstB (progMatch command) q, 0, true)
    else
      .ok (q, 0, true)
  else if command = "invalidateviewcursor:" then
    match item.viewIdParse with
    | none => .error q
    | some viewId =>
      match eraseFirstE (viewPred viewId) q with
      | .error _ => .error q
      | .ok q2 => .ok (q2, 0, true)
  else
    .ok (q, 0, true)

/-- Translation of `SenderQueue::enqueue`: when the termination flag is unset
the item runs through `deduplicate` and is appended at the tail when
`deduplicate` returns true; the returned number is `_queue.size()` after the
call.  When the flag is set the item is dropped and the current size is
returned.  An `.error` result models the dedup exception leaving `enqueue`
and carries the queue contents at that moment. -/
def enqueue (termFlag : Bool) (item : Msg) (q : List Entry) :
    Except (List Entry) (List Entry × Nat) :=
  if !termFlag then
    match deduplicate item q with
    | .error e => .error e
    | .ok (q2, h, shouldEnq) =>
      let q3 := if shouldEnq then q2 ++ [⟨item, h⟩] else q2
      .ok (q3, q3.length)
  else
    .ok (q, q.length)

/-- Translation of `SenderQueue::dequeue`: the popped item, if any, together
with the queue afterwards.  A set termination flag short-circuits to "no
message" before the queue is looked at. -/
def dequeue (termFlag : Bool) (q : List Entry) : Option Msg × List Entry :=
  if termFlag then (none, q)
  else
    match q with
    | [] => (none, q)
    | e :: es => (some e.msg, es)

/-- Translation of `SenderQueue::size`. -/
def size (q : List Entry) : Nat := q.length

/-- One line of the `dumpState` report body. -/
inductive DumpLine where
  | entryLine (binary : Bool) (id : String) (content : String)
  | repeatsLine (n : Nat)
  deriving DecidableEq, Repr

/-- Modelled from the spec: the abbreviated content of a message as listed by
the report (`COOLProtocol::getAbbreviatedMessage`, not among the provided
sources), a pure truncation of the payload. -/
def Msg.abbreviated (m : Msg) : String := String.mk (m.payload.data.take 128)

/-- The body loop of `dumpState`: `repeats` counts consecutive text items
whose abbreviated string equals the previous one (`lastStr`, initially
empty); a pending run is flushed as a repeats line before the next distinct
or binary item is listed. -/
def dumpLoop : List Entry → Nat → String → List DumpLine
  | [], repeats, _ => if repeats > 0 then [.repeatsLine repeats] else []
  | e :: es, repeats, lastStr =>
    let itemStr := e.msg.abbreviated
    if lastStr = itemStr ∧ e.msg.isBinary = false then
      dumpLoop es (repeats + 1) itemStr
    else
      (if repeats > 0 then [DumpLine.repeatsLine repeats] else [])
        ++ DumpLine.entryLine e.msg.isBinary e.msg.id itemStr :: dumpLoop es 0 itemStr

/-- Report produced by `dumpState`: item count, body lines, total byte size,
and the queue as the method leaves it (its loop only reads `_queue`). -/
structure DumpReport where
  itemCount : Nat
  lines : List DumpLine
  totalBytes : Nat
  queueAfter : List Entry
  deriving DecidableEq, Repr

/-- Translation of `SenderQueue::dumpState`. -/
def dumpState (q : List Entry) : DumpReport :=
  { itemCount := q.length,
    lines := dumpLoop q 0 "",
    totalBytes := (q.map (fun e => e.msg.payload.length)).sum,
    queueAfter := q }

/-- A queued entry fully matching an incoming tile descriptor: a `tile:`
message whose first line parses to exactly that descriptor. -/
def tMatch (d : TileDesc) (e : Entry) : Bool :=
  decide (e.msg.firstToken = "tile:" ∧ e.msg.tileParse = some d)

/-- Hash-cache consistency: every queued `tile:` message parsed successfully
at its own enqueue and carries the position hash of its parsed descriptor
(the spec's invariant that `cachedPositionHash` is a cache of a pure function
of the descriptor).  `enqueue` preserves this invariant. -/
def TileInv (q : List Entry) : Prop :=
  ∀ e ∈ q, e.msg.firstToken = "tile:" →
    ∃ t, e.msg.tileParse = some t ∧ e.hash = t.equalityHash

/-- A queued entry matching an incoming view id: an `invalidateviewcursor:`
message whose payload's `viewId` equals it. -/
def vMatch (v : String) (e : Entry) : Bool :=
  decide (e.msg.firstToken = "invalidateviewcursor:" ∧ e.msg.viewIdParse = some v)

/-- Every queued `invalidateviewcursor:` message has a parseable `viewId`
(true of all queues built by `enqueue`, which throws the message away into an
error before appending otherwise). -/
def IvcInv (q : List Entry) : Prop :=
  ∀ e ∈ q, e.msg.firstToken = "invalidateviewcursor:" → ∃ v, e.msg.viewIdParse = some v

/-- Enqueue a list of messages in order, propagating a dedup exception. -/
def enqueueAll (flag : Bool) : List Msg → List Entry → Except (List Entry) (List Entry)
  | [], q => .ok q
  | m :: ms, q =>
    match enqueue flag m q with
    | .error e => .error e
    | .ok (q2, _) => enqueueAll flag ms q2

/-- The dedup rules of a message sequence are mutually non-interacting when
run from a given queue: every `deduplicate` step leaves the queue unchanged
(no message supersedes another, nothing throws). -/
def seqNeutral : List Msg → List Entry → Bool
  | [], _ => true
  | m :: ms, q =>
    match deduplicate m q with
    | .ok (q2, h, true) => decide (q2 = q) && seqNeutral ms (q ++ [⟨m, h⟩])
    | _ => false

/-- Perform `n` successive `dequeue` calls, collecting the returned
messages. -/
def dequeueN (flag : Bool) : Nat → List Entry → List Msg × List Entry
  | 0, q => ([], q)
  | n + 1, q =>
    match dequeue flag q with
    | (none, q2) => ([], q2)
    | (some m, q2) =>
      let r := dequeueN flag n q2
      (m :: r.1, r.2)

/-- Is a report line the listing of a binary message? -/
def isBinLine : DumpLine → Bool
  | .entryLine true _ _ => true
  | _ => false

/-- Is a report line the listing of a message (as opposed to a repeats
marker)? -/
def isEntryLine : DumpLine → Bool
  | .entryLine _ _ _ => true
  | _ => false

/-- Total number of messages accounted for by the repeats markers of a
report. -/
def repeatsSum : List DumpLine → Nat
  | [] => 0
  | .repeatsLine n :: ls => n + repeatsSum ls
  | _ :: ls => repeatsSum ls

/-- Concrete tile descriptor used by witnesses. -/
def tdA : TileDesc := ⟨0, 3840, 3840, 0, 0, 256, 256⟩

/-- Concrete descriptor differing from `tdA` only in `tileHeight`, hence
unequal to it but sharing its position hash. -/
def tdColl : TileDesc := ⟨0, 3840, 3840, 0, 0, 256, 512⟩

/-- Concrete well-formed `tile:` message parsing to `tdA`. -/
def wTile1 : Msg :=
  { payload := "tile: nviewid=0 part=0 width=256 height=256 tileposx=0 tileposy=0",
    firstLine := "tile: nviewid=0 part=0 width=256 height=256 tileposx=0 tileposy=0",
    isBinary := true, id := "t1", tileParse := some tdA, viewIdParse := none }

/-- Concrete `tile:` message with the same descriptor as `wTile1` but
different payload bytes. -/
def wTile1b : Msg :=
  { payload := "tile: nviewid=0 part=0 width=256 height=256 tileposx=0 tileposy=0 ver=9",
    firstLine := "tile: nviewid=0 part=0 width=256 height=256 tileposx=0 tileposy=0 ver=9",
    isBinary := true, id := "t2", tileParse := some tdA, viewIdParse := none }

/-- Concrete `tile:` message parsing to `tdColl`, whose hash collides with
`tdA`. -/
def wTileColl : Msg :=
  { payload := "tile: nviewid=0 part=0 width=256 height=256 tilewidth=3840 tileheight=7680",
    firstLine := "tile: nviewid=0 part=0 width=256 height=256 tilewidth=3840 tileheight=7680",
    isBinary := true, id := "t3", tileParse := some tdColl, viewIdParse := none }

/-- Concrete `tile:` message whose first line fails to parse. -/
def badTile : Msg :=
  { payload := "tile: garbage", firstLine := "tile: garbage",
    isBinary := false, id := "bt", tileParse := none, viewIdParse := none }

/-- Concrete `invalidateviewcursor:` message whose payload fails to parse as
JSON. -/
def badIvc : Msg :=
  { payload := "invalidateviewcursor: garbage", firstLine := "invalidateviewcursor: garbage",
    isBinary := false, id := "bv", tileParse := none, viewIdParse := none }

/-- A well-formed queued tile entry with a consistent cached hash. -/
def goodEntry : Entry := Entry.mk wTile1 tdA.equalityHash

/-- Concrete message with a command token outside the dedup table. -/
def wOtherA : Msg :=
  { payload := "statechanged: .uno:ModifiedStatus=true",
    firstLine := "statechanged: .uno:ModifiedStatus=true",
    isBinary := false, id := "s1", tileParse := none, viewIdParse := none }

/-- A second message with a command token outside the dedup table. -/
def wOtherB : Msg :=
  { payload := "window: 21 paint", firstLine := "window: 21 paint",
    isBinary := false, id := "s2", tileParse := none, viewIdParse := none }

/-- Concrete `invalidatecursor:` message. -/
def wCur : Msg :=
  { payload := "invalidatecursor: 1, 2", firstLine := "invalidatecursor: 1, 2",
    isBinary := false, id := "c1", tileParse := none, viewIdParse := none }

/-- Concrete `progress:` message carrying the `setvalue` marker. -/
def wProgM : Msg :=
  { payload := "progress: \"id\":\"setvalue\" \"value\":50", firstLine := "progress: x",
    isBinary := false, id := "p1", tileParse := none, viewIdParse := none }

/-- Concrete `progress:` message without the `setvalue` marker. -/
def wProgN : Msg :=
  { payload := "progress: \"id\":\"finish\"", firstLine := "progress: y",
    isBinary := false, id := "p2", tileParse := none, viewIdParse := none }

/-- Concrete `invalidateviewcursor:` message for view "1". -/
def wIvc1 : Msg :=
  { payload := "invalidateviewcursor: viewId 1", firstLine := "invalidateviewcursor: a",
    isBinary := false, id := "v1", tileParse := none, viewIdParse := some "1" }

/-- A later `invalidateviewcursor:` message for view "1". -/
def wIvc1b : Msg :=
  { payload := "invalidateviewcursor: viewId 1 again", firstLine := "invalidateviewcursor: b",
    isBinary := false, id := "v2", tileParse := none, viewIdParse := some "1" }

/-- Concrete `invalidateviewcursor:` message for view "2". -/
def wIvc2 : Msg :=
  { payload := "invalidateviewcursor: viewId 2", firstLine := "invalidateviewcursor: c",
    isBinary := false, id := "v3", tileParse := none, viewIdParse := some "2" }

/-- Concrete binary message, for the `dumpState` witness. -/
def wBin : Msg :=
  { payload := "tile-binary-data", firstLine := "tile-binary-data",
    isBinary := true, id := "b1", tileParse := none, viewIdParse := none }

/-- Concrete text message with an empty payload; its abbreviated content is
the empty string. -/
def eEmpty : Msg :=
  { payload := "", firstLine := "", isBinary := false, id := "m0",
    tileParse := none, viewIdParse := none }

/-- Under hash-cache consistency the fallible tile scan predicate computes
exactly full-descriptor matching: non-tile entries and hash mismatches are
rejected, and on a hash collision the full-equality fallback rejects the
match. -/
theorem tilePred_eq (d : TileDesc) (q : List Entry) (hInv : TileInv q)
    (e : Entry) (he : e ∈ q) :
    tilePred d d.equalityHash e = .ok (tMatch d e) := by
  by_cases hTok : e.msg.firstToken = "tile:"
  · obtain ⟨t, hpt, hh⟩ := hInv e he hTok
    by_cases hd : d = t
    · subst hd
      simp [tilePred, tMatch, hTok, hpt, hh]
    · have hd2 : ¬t = d := fun h2 => hd h2.symm
      by_cases hhash : d.equalityHash = t.equalityHash
      · simp [tilePred, tMatch, hTok, hpt, hh, hhash, hd, hd2]
      · simp [tilePred, tMatch, hTok, hpt, hh, hhash, hd, hd2]
  · simp [tilePred, tMatch, hTok]

/-- A fallible scan whose predicate never throws on the scanned list computes
the pure first-match removal. -/
theorem eraseFirstE_congr {α : Type} (p : α → Except Unit Bool) (pb : α → Bool)
    (l : List α) (h : ∀ a ∈ l, p a = .ok (pb a)) :
    eraseFirstE p l = .ok (eraseFirstB pb l) := by
  induction l with
  | nil => rfl
  | cons a as ih =>
    have ha := h a (List.mem_cons_self a as)
    have hrest := ih (fun b hb => h b (List.mem_cons_of_mem a hb))
    cases hpb : pb a with
    | true => simp [eraseFirstE, eraseFirstB, ha, hpb, hrest]
    | false => simp [eraseFirstE, eraseFirstB, ha, hpb, hrest]

/-- Removing the first match from a list without matches changes nothing. -/
theorem eraseFirstB_none {α : Type} (pb : α → Bool) (l : List α)
    (h : ∀ a ∈ l, pb a = false) : eraseFirstB pb l = l := by
  induction l with
  | nil => rfl
  | cons a as ih =>
    simp [eraseFirstB, h a (List.mem_cons_self a as),
      ih (fun b hb => h b (List.mem_cons_of_mem a hb))]

/-- Removing the first match from a list holding exactly one match at a known
position removes exactly that element. -/
theorem eraseFirstB_decomp {α : Type} (pb : α → Bool) (l1 l2 : List α) (a0 : α)
    (h1 : ∀ a ∈ l1, pb a = false) (h0 : pb a0 = true) :
    eraseFirstB pb (l1 ++ a0 :: l2) = l1 ++ l2 := by
  induction l1 with
  | nil => simp [eraseFirstB, h0]
  | cons a as ih =>
    simp [eraseFirstB, h1 a (List.mem_cons_self a as),
      ih (fun b hb => h1 b (List.mem_cons_of_mem a hb))]

/-- The `tile:` branch of `deduplicate` under hash-cache consistency: the
scan removes the first fully-equal tile entry and reports the incoming
descriptor's hash for `setHash`. -/
theorem deduplicate_tile (item : Msg) (d : TileDesc) (q : List Entry)
    (hTok : item.firstToken = "tile:") (hParse : item.tileParse = some d)
    (hInv : TileInv q) :
    deduplicate item q = .ok (eraseFirstB (tMatch d) q, d.equalityHash, true) := by
  have h := eraseFirstE_congr (tilePred d d.equalityHash) (tMatch d) q
    (fun e he => tilePred_eq d q hInv e he)
  simp [deduplicate, hTok, hParse, h]

/-- The `invalidatecursor:` / `setpart:` branch of `deduplicate`. -/
theorem deduplicate_cursor (item : Msg) (q : List Entry)
    (hTok : item.firstToken = "invalidatecursor:" ∨ item.firstToken = "setpart:") :
    deduplicate item q = .ok (eraseFirstB (cursorMatch item.firstToken) q, 0, true) := by
  rcases hTok with h | h <;> simp [deduplicate, h]

/-- The `progress:` branch of `deduplicate`: only a marker-carrying incoming
message scans, and it looks only for marker-carrying queued entries. -/
theorem deduplicate_progress (item : Msg) (q : List Entry)
    (hTok : item.firstToken = "progress:") :
    deduplicate item q =
      (if item.containsTag then .ok (eraseFirstB (progMatch "progress:") q, 0, true)
       else .ok (q, 0, true)) := by
  by_cases hTag : item.containsTag = true
  · simp [deduplicate, hTok, hTag]
  · simp at hTag
    simp [deduplicate, hTok, hTag]

/-- When every queued `invalidateviewcursor:` message has a parseable
`viewId`, the fallible view scan predicate computes exactly same-view
matching. -/
theorem viewPred_eq (v : String) (q : List Entry) (hInv : IvcInv q)
    (e : Entry) (he : e ∈ q) :
    viewPred v e = .ok (vMatch v e) := by
  by_cases hTok : e.msg.firstToken = "invalidateviewcursor:"
  · obtain ⟨w, hw⟩ := hInv e he hTok
    by_cases hv : v = w
    · subst hv
      simp [viewPred, vMatch, hTok, hw]
    · have hv2 : ¬w = v := fun h2 => hv h2.symm
      simp [viewPred, vMatch, hTok, hw, hv, hv2]
  · simp [viewPred, vMatch, hTok]

/-- The `invalidateviewcursor:` branch of `deduplicate` on a queue whose
same-token entries all parse: removes the first same-view entry. -/
theorem deduplicate_ivc (item : Msg) (v : String) (q : List Entry)
    (hTok : item.firstToken = "invalidateviewcursor:")
    (hParse : item.viewIdParse = some v) (hInv : IvcInv q) :
    deduplicate item q = .ok (eraseFirstB (vMatch v) q, 0, true) := by
  have h := eraseFirstE_congr (viewPred v) (vMatch v) q
    (fun e he => viewPred_eq v q hInv e he)
  simp [deduplicate, hTok, hParse, h]

/-- A message whose command token is outside the dedup table is passed
through with no removal. -/
theorem deduplicate_other (item : Msg) (q : List Entry)
    (h1 : item.firstToken ≠ "tile:") (h2 : item.firstToken ≠ "invalidatecursor:")
    (h3 : item.firstToken ≠ "setpart:") (h4 : item.firstToken ≠ "progress:")
    (h5 : item.firstToken ≠ "invalidateviewcursor:") :
    deduplicate item q = .ok (q, 0, true) := by
  simp [deduplicate, h1, h2, h3, h4, h5]

/-- `enqueue` under an unset flag appends the incoming item, carrying the
hash chosen by `deduplicate`, to the post-dedup queue and returns the new
size. -/
theorem enqueue_ok_of_dedup (item : Msg) (q q2 : List Entry) (h : Nat)
    (hd : deduplicate item q = .ok (q2, h, true)) :
    enqueue false item q = .ok (q2 ++ [⟨item, h⟩], q2.length + 1) := by
  simp [enqueue, hd]

/-- Every throwing path of `deduplicate` leaves the queue exactly as it
was. -/
theorem dedup_error_eq (item : Msg) (q e : List Entry)
    (h : deduplicate item q = .error e) : e = q := by
  simp only [deduplicate] at h
  split at h
  · split at h
    · injection h with h2
      exact h2.symm
    · split at h
      · injection h with h2
        exact h2.symm
      · exact Except.noConfusion h
  · split at h
    · exact Except.noConfusion h
    · split at h
      · split at h
        · exact Except.noConfusion h
        · exact Except.noConfusion h
      · split at h
        · split at h
          · injection h with h2
            exact h2.symm
          · split at h
            · injection h with h2
              exact h2.symm
            · exact Except.noConfusion h
        · exact Except.noConfusion h

/-- A dedup exception propagates out of `enqueue` with the queue
untouched. -/
theorem enqueue_error_of_dedup (item : Msg) (q e : List Entry)
    (h : deduplicate item q = .error e) :
    enqueue false item q = .error q := by
  have he := dedup_error_eq item q e h
  subst he
  simp [enqueue, h]

/-- Draining a queue by successive dequeues returns its messages in order. -/
theorem dequeueN_drain (l : List Entry) :
    dequeueN false l.length l = (l.map Entry.msg, []) := by
  induction l with
  | nil => rfl
  | cons e es ih => simp [dequeueN, dequeue, ih]

/-- A mutually non-interacting message sequence is appended verbatim by
successive enqueues. -/
theorem enqueueAll_neutral (ms : List Msg) (q : List Entry)
    (h : seqNeutral ms q = true) :
    ∃ qf, enqueueAll false ms q = .ok qf ∧
      qf.map Entry.msg = q.map Entry.msg ++ ms := by
  induction ms generalizing q with
  | nil => exact ⟨q, rfl, by simp⟩
  | cons m ms ih =>
    unfold seqNeutral at h
    cases hd : deduplicate m q with
    | error e =>
      rw [hd] at h
      exact absurd h (by simp)
    | ok r =>
      obtain ⟨q2, hh, b⟩ := r
      rw [hd] at h
      cases b with
      | false => exact absurd h (by simp)
      | true =>
        simp only [Bool.and_eq_true, decide_eq_true_eq] at h
        obtain ⟨hq, hrest⟩ := h
        subst hq
        obtain ⟨qf, h1, h2⟩ := ih (q2 ++ [⟨m, hh⟩]) hrest
        have henq : enqueue false m q2 = .ok (q2 ++ [⟨m, hh⟩], q2.length + 1) :=
          enqueue_ok_of_dedup m q2 q2 hh hd
        refine ⟨qf, ?_, ?_⟩
        · simp [enqueueAll, henq, h1]
        · rw [h2]
          simp

/-- Elements of a first-match removal all come from the original list. -/
theorem mem_of_mem_eraseFirstB {α : Type} (p : α → Bool) (l : List α) (a : α)
    (h : a ∈ eraseFirstB p l) : a ∈ l := by
  induction l with
  | nil => cases h
  | cons b bs ih =>
    by_cases hb : p b = true
    · simp only [eraseFirstB, if_pos hb] at h
      exact List.mem_cons_of_mem b h
    · simp only [Bool.not_eq_true] at hb
      simp only [eraseFirstB, hb, Bool.false_eq_true, if_false, List.mem_cons] at h
      rcases h with h | h
      · exact h ▸ List.mem_cons_self b bs
      · exact List.mem_cons_of_mem b (ih h)

/-- A non-matching element survives a first-match removal. -/
theorem mem_eraseFirstB_of_not {α : Type} (p : α → Bool) (l : List α) (a : α)
    (ha : a ∈ l) (hpa : p a = false) : a ∈ eraseFirstB p l := by
  induction l with
  | nil => cases ha
  | cons b bs ih =>
    rw [List.mem_cons] at ha
    by_cases hb : p b = true
    · rw [eraseFirstB, if_pos hb]
      rcases ha with h | h
      · subst h
        rw [hpa] at hb
        cases hb
      · exact h
    · simp only [Bool.not_eq_true] at hb
      rw [eraseFirstB, hb]
      simp only [Bool.false_eq_true, if_false, List.mem_cons]
      rcases ha with h | h
      · exact Or.inl h
      · exact Or.inr (ih h)

/-- Elements of a successful fallible first-match removal all come from the
original list. -/
theorem mem_of_eraseFirstE_ok {α : Type} (p : α → Except Unit Bool) (l l2 : List α)
    (h : eraseFirstE p l = .ok l2) : ∀ a ∈ l2, a ∈ l := by
  induction l generalizing l2 with
  | nil =>
    simp only [eraseFirstE] at h
    injection h with h2
    subst h2
    intro a ha
    exact ha
  | cons b bs ih =>
    simp only [eraseFirstE] at h
    cases hp : p b with
    | error e =>
      rw [hp] at h
      exact Except.noConfusion h
    | ok bv =>
      rw [hp] at h
      cases bv with
      | true =>
        injection h with h2
        subst h2
        intro a ha
        exact List.mem_cons_of_mem b ha
      | false =>
        cases he : eraseFirstE p bs with
        | error e =>
          rw [he] at h
          exact Except.noConfusion h
        | ok bs2 =>
          rw [he] at h
          injection h with h2
          subst h2
          intro a ha
          rcases List.mem_cons.mp ha with h3 | h3
          · exact h3 ▸ List.mem_cons_self b bs
          · exact List.mem_cons_of_mem b (ih bs2 he a h3)

/-- The sum of repeats markers distributes over report concatenation. -/
theorem repeatsSum_append (l1 l2 : List DumpLine) :
    repeatsSum (l1 ++ l2) = repeatsSum l1 + repeatsSum l2 := by
  induction l1 with
  | nil => simp [repeatsSum]
  | cons a l ih =>
    cases a with
    | entryLine b i c => simp [repeatsSum, ih]
    | repeatsLine n =>
      simp [repeatsSum, ih]
      omega

/-- A flushed repeats run contains no binary entry line. -/
theorem flush_binCount (r : Nat) :
    ((if r > 0 then [DumpLine.repeatsLine r] else []) : List DumpLine).countP isBinLine = 0 := by
  by_cases hr : r > 0 <;>
    simp [hr, isBinLine, List.countP_cons, List.countP_nil]

/-- A flushed repeats run contains no entry line. -/
theorem flush_entryCount (r : Nat) :
    ((if r > 0 then [DumpLine.repeatsLine r] else []) : List DumpLine).countP isEntryLine = 0 := by
  by_cases hr : r > 0 <;>
    simp [hr, isEntryLine, List.countP_cons, List.countP_nil]

/-- Flushing a run of `r` repeats accounts for exactly `r` messages. -/
theorem flush_repeatsSum (r : Nat) :
    repeatsSum ((if r > 0 then [DumpLine.repeatsLine r] else []) : List DumpLine) = r := by
  by_cases hr : r > 0
  · simp [hr, repeatsSum]
  · simp [hr, repeatsSum]
    omega

/-- An entry line followed by more lines adds nothing to the repeats sum. -/
theorem repeatsSum_entry_cons (b : Bool) (i c : String) (ls : List DumpLine) :
    repeatsSum (DumpLine.entryLine b i c :: ls) = repeatsSum ls := rfl

/-- Every binary message in the queue is listed by its own entry line: a
binary item never joins a repeat run. -/
theorem dumpLoop_binCount (q : List Entry) :
    ∀ (r : Nat) (lastStr : String),
      (dumpLoop q r lastStr).countP isBinLine =
        q.countP (fun e => e.msg.isBinary) := by
  induction q with
  | nil =>
    intro r lastStr
    by_cases hr : r > 0 <;>
      simp [dumpLoop, hr, isBinLine, List.countP_cons, List.countP_nil]
  | cons e es ih =>
    intro r lastStr
    simp only [dumpLoop]
    rw [List.countP_cons]
    by_cases hc : lastStr = e.msg.abbreviated ∧ e.msg.isBinary = false
    · rw [if_pos hc, ih, hc.2]
      simp
    · rw [if_neg hc, List.countP_append, flush_binCount, List.countP_cons, ih]
      cases hb : e.msg.isBinary <;> simp [isBinLine, hb]

/-- No message is lost by the report: entry lines plus messages folded into
repeats markers account for the whole queue. -/
theorem dumpLoop_conservation (q : List Entry) :
    ∀ (r : Nat) (lastStr : String),
      (dumpLoop q r lastStr).countP isEntryLine + repeatsSum (dumpLoop q r lastStr) =
        q.length + r := by
  induction q with
  | nil =>
    intro r lastStr
    by_cases hr : r > 0
    · simp [dumpLoop, hr, isEntryLine, repeatsSum, List.countP_cons, List.countP_nil]
    · simp [dumpLoop, hr, isEntryLine, repeatsSum, List.countP_nil]
      omega
  | cons e es ih =>
    intro r lastStr
    simp only [dumpLoop]
    by_cases hc : lastStr = e.msg.abbreviated ∧ e.msg.isBinary = false
    · rw [if_pos hc, ih]
      simp only [List.length_cons]
      omega
    · rw [if_neg hc, List.countP_append, flush_entryCount, repeatsSum_append,
        flush_repeatsSum, List.countP_cons, repeatsSum_entry_cons]
      have h2 := ih 0 e.msg.abbreviated
      simp only [isEntryLine, if_pos, List.length_cons] at h2 ⊢
      omega

/-- C1, tile supersession: enqueuing a `tile:` message whose first line
parses to a descriptor equal to that of exactly one queued `tile:` message
(on a queue with consistent hash caches, as `enqueue` maintains) removes that
one older message and appends the new one at the tail; exactly one message
with that descriptor remains, and it is the tail entry. -/
theorem tile_supersession (item : Msg) (d : TileDesc) (q1 q2 : List Entry) (e0 : Entry)
    (hTok : item.firstToken = "tile:") (hParse : item.tileParse = some d)
    (hInv : TileInv (q1 ++ e0 :: q2))
    (h0 : tMatch d e0 = true)
    (h1 : ∀ e ∈ q1, tMatch d e = false)
    (h2 : ∀ e ∈ q2, tMatch d e = false) :
    enqueue false item (q1 ++ e0 :: q2) =
      .ok (q1 ++ q2 ++ [⟨item, d.equalityHash⟩], (q1 ++ q2).length + 1) ∧
    (q1 ++ q2 ++ [Entry.mk item d.equalityHash]).countP (tMatch d) = 1 ∧
    (q1 ++ q2 ++ [Entry.mk item d.equalityHash]).getLast? = some (Entry.mk item d.equalityHash) := by
  have hd := deduplicate_tile item d (q1 ++ e0 :: q2) hTok hParse hInv
  rw [eraseFirstB_decomp (tMatch d) q1 q2 e0 h1 h0] at hd
  have henq := enqueue_ok_of_dedup item (q1 ++ e0 :: q2) (q1 ++ q2) d.equalityHash hd
  refine ⟨henq, ?_, ?_⟩
  · have z1 : q1.countP (tMatch d) = 0 :=
      List.countP_eq_zero.mpr (fun a ha => by simp [h1 a ha])
    have z2 : q2.countP (tMatch d) = 0 :=
      List.countP_eq_zero.mpr (fun a ha => by simp [h2 a ha])
    rw [List.countP_append, List.countP_append, z1, z2]
    simp [List.countP_cons, tMatch, hTok, hParse]
  · exact List.getLast?_concat _

/-- Witness for C1 at a concrete input: a second tile message with the same
descriptor as the queued one but different payload bytes supersedes it. -/
theorem tile_supersession_witness :
    wTile1b.firstToken = "tile:" ∧ wTile1b.tileParse = some tdA ∧
    tMatch tdA goodEntry = true ∧
    enqueue false wTile1b [goodEntry] = .ok ([Entry.mk wTile1b tdA.equalityHash], 1) ∧
    ([Entry.mk wTile1b tdA.equalityHash] : List Entry).countP (tMatch tdA) = 1 := by
  have h := tile_supersession wTile1b tdA [] [] goodEntry rfl rfl
    (by intro e he htok
        simp [goodEntry] at he
        subst he
        exact ⟨tdA, rfl, rfl⟩)
    (by decide) (by simp) (by simp)
  exact ⟨rfl, rfl, by decide, h.1, h.2.1⟩

/-- C2, FIFO baseline: a sequence of messages whose dedup rules are mutually
non-interacting is delivered by successive dequeues exactly in enqueue order,
with no loss and no reordering. -/
theorem fifo_baseline (msgs : List Msg) (h : seqNeutral msgs [] = true) :
    ∃ qf, enqueueAll false msgs [] = .ok qf ∧
      qf.map Entry.msg = msgs ∧
      dequeueN false qf.length qf = (msgs, []) := by
  obtain ⟨qf, h1, h2⟩ := enqueueAll_neutral msgs [] h
  simp only [List.map_nil, List.nil_append] at h2
  exact ⟨qf, h1, h2, by rw [dequeueN_drain, h2]⟩

/-- Witness for C2 at a concrete input: two messages with unrelated command
tokens come out in enqueue order. -/
theorem fifo_baseline_witness :
    seqNeutral [wOtherA, wOtherB] [] = true ∧
    (∃ qf, enqueueAll false [wOtherA, wOtherB] [] = .ok qf ∧
      qf.map Entry.msg = [wOtherA, wOtherB] ∧
      dequeueN false qf.length qf = ([wOtherA, wOtherB], [])) :=
  ⟨by decide, fifo_baseline [wOtherA, wOtherB] (by decide)⟩

/-- C3, shutdown idempotence: with the termination flag set, `enqueue` drops
the message, leaves the queue and its size unchanged and still returns a
length; `dequeue` returns "no message" without removing anything; any number
of such enqueues changes nothing. -/
theorem shutdown_idempotence (item : Msg) (q : List Entry) (msgs : List Msg) :
    enqueue true item q = .ok (q, size q) ∧
    dequeue true q = (none, q) ∧
    enqueueAll true msgs q = .ok q := by
  refine ⟨rfl, rfl, ?_⟩
  induction msgs with
  | nil => rfl
  | cons m ms ih => simp [enqueueAll, enqueue, ih]

/-- Counterexample to C4 as stated: enqueuing a `tile:` message whose first
line fails to parse raises the parse error out of `enqueue` instead of
appending the message and returning a length. -/
theorem malformed_resilience_cex :
    enqueue false badTile [goodEntry] = .error [goodEntry] ∧
    enqueue false badTile [goodEntry] ≠ .ok ([goodEntry, Entry.mk badTile 0], 2) := by
  have h1 : enqueue false badTile [goodEntry] = .error [goodEntry] := rfl
  refine ⟨h1, ?_⟩
  rw [h1]
  intro h
  exact Except.noConfusion h

/-- C4 amended: a `tile:` or `invalidateviewcursor:` message whose payload
fails to parse makes `enqueue` propagate the parse error; no queued entry is
removed and the incoming message is not appended (no length is returned). -/
theorem malformed_parse_error_propagates (item : Msg) (q : List Entry)
    (h : (item.firstToken = "tile:" ∧ item.tileParse = none) ∨
         (item.firstToken = "invalidateviewcursor:" ∧ item.viewIdParse = none)) :
    enqueue false item q = .error q := by
  rcases h with ⟨hTok, hParse⟩ | ⟨hTok, hParse⟩ <;>
    · apply enqueue_error_of_dedup item q q
      simp [deduplicate, hTok, hParse]

/-- Witness for the amended C4 at a concrete input: an unparsable
`invalidateviewcursor:` message errors out of `enqueue` with the queue
untouched. -/
theorem malformed_parse_error_witness :
    (badIvc.firstToken = "invalidateviewcursor:" ∧ badIvc.viewIdParse = none) ∧
    enqueue false badIvc [goodEntry] = .error [goodEntry] :=
  ⟨⟨rfl, rfl⟩, malformed_parse_error_propagates badIvc [goodEntry] (Or.inr ⟨rfl, rfl⟩)⟩

/-- C5, tile hash-collision non-interference: a `tile:` message whose
descriptor fully equals no queued tile descriptor removes nothing — even
when position hashes collide, the full-equality fallback rejects the match —
and is appended at the tail. -/
theorem tile_collision_noninterference (item : Msg) (d : TileDesc) (q : List Entry)
    (hTok : item.firstToken = "tile:") (hParse : item.tileParse = some d)
    (hInv : TileInv q) (hNo : ∀ e ∈ q, tMatch d e = false) :
    enqueue false item q = .ok (q ++ [⟨item, d.equalityHash⟩], q.length + 1) := by
  have hd := deduplicate_tile item d q hTok hParse hInv
  rw [eraseFirstB_none (tMatch d) q hNo] at hd
  exact enqueue_ok_of_dedup item q q d.equalityHash hd

/-- Witness for C5 at a concrete input: two distinct descriptors with equal
position hashes; enqueuing the second leaves both messages queued. -/
theorem tile_collision_witness :
    tdA ≠ tdColl ∧ TileDesc.equalityHash tdA = TileDesc.equalityHash tdColl ∧
    enqueue false wTileColl [goodEntry] =
      .ok ([goodEntry, Entry.mk wTileColl tdColl.equalityHash], 2) := by
  refine ⟨by decide, by decide, ?_⟩
  exact tile_collision_noninterference wTileColl tdColl [goodEntry] rfl rfl
    (by intro e he htok
        simp [goodEntry] at he
        subst he
        exact ⟨tdA, rfl, rfl⟩)
    (by decide)

/-- C6, progress marker specificity: a `progress:` message without the
`setvalue` marker removes nothing and is appended; one with the marker
removes exactly the first queued marker-carrying `progress:` message before
being appended (so a marker-free message is never removed by a later
marker-carrying one); in the marker / no-marker / marker scenario the final
queue holds exactly the marker-free message and the newest marker message. -/
theorem progress_marker_specificity (item : Msg) (q : List Entry)
    (hTok : item.firstToken = "progress:") :
    (item.containsTag = false →
      enqueue false item q = .ok (q ++ [Entry.mk item 0], q.length + 1)) ∧
    (item.containsTag = true →
      enqueue false item q =
        .ok (eraseFirstB (progMatch "progress:") q ++ [Entry.mk item 0],
          (eraseFirstB (progMatch "progress:") q).length + 1)) ∧
    (∀ m1 m2 m3 : Msg, m1.firstToken = "progress:" → m2.firstToken = "progress:" →
      m3.firstToken = "progress:" → m1.containsTag = true → m2.containsTag = false →
      m3.containsTag = true →
      enqueueAll false [m1, m2, m3] [] = .ok [Entry.mk m2 0, Entry.mk m3 0]) := by
  refine ⟨?_, ?_, ?_⟩
  · intro hTag
    have hd := deduplicate_progress item q hTok
    rw [hTag] at hd
    simp only [Bool.false_eq_true, if_false] at hd
    exact enqueue_ok_of_dedup item q q 0 hd
  · intro hTag
    have hd := deduplicate_progress item q hTok
    rw [hTag] at hd
    simp only [if_true] at hd
    exact enqueue_ok_of_dedup item q _ 0 hd
  · intro m1 m2 m3 t1 t2 t3 g1 g2 g3
    have hd1 := deduplicate_progress m1 [] t1
    rw [g1] at hd1
    simp only [if_true] at hd1
    rw [show eraseFirstB (progMatch "progress:") [] = [] from rfl] at hd1
    have e1 := enqueue_ok_of_dedup m1 [] [] 0 hd1
    have hd2 := deduplicate_progress m2 [Entry.mk m1 0] t2
    rw [g2] at hd2
    simp only [Bool.false_eq_true, if_false] at hd2
    have e2 := enqueue_ok_of_dedup m2 [Entry.mk m1 0] [Entry.mk m1 0] 0 hd2
    have hd3 := deduplicate_progress m3 [Entry.mk m1 0, Entry.mk m2 0] t3
    rw [g3] at hd3
    simp only [if_true] at hd3
    rw [show eraseFirstB (progMatch "progress:") [Entry.mk m1 0, Entry.mk m2 0] =
        [Entry.mk m2 0] by simp [eraseFirstB, progMatch, t1, g1]] at hd3
    have e3 := enqueue_ok_of_dedup m3 [Entry.mk m1 0, Entry.mk m2 0] [Entry.mk m2 0] 0 hd3
    simp [enqueueAll, e1, e2, e3]

/-- Witness for C6 at a concrete input: marker, no-marker, marker leaves the
marker-free message plus the newest marker message. -/
theorem progress_marker_witness :
    wProgM.firstToken = "progress:" ∧ wProgM.containsTag = true ∧
    wProgN.containsTag = false ∧
    enqueueAll false [wProgM, wProgN, wProgM] [] =
      .ok [Entry.mk wProgN 0, Entry.mk wProgM 0] := by
  refine ⟨rfl, by decide, by decide, ?_⟩
  exact (progress_marker_specificity wProgM [] rfl).2.2 wProgM wProgN wProgM rfl rfl rfl
    (by decide) (by decide) (by decide)

/-- C7, view-cursor isolation: an `invalidateviewcursor:` message removes
exactly the first queued same-token message with the same `viewId` (any
entry for a different view survives) and is appended; interleaving views "1",
"2", "1" ends with exactly one entry per view, each the latest. -/
theorem viewcursor_isolation (item : Msg) (v : String) (q : List Entry)
    (hTok : item.firstToken = "invalidateviewcursor:")
    (hParse : item.viewIdParse = some v) (hInv : IvcInv q) :
    enqueue false item q =
      .ok (eraseFirstB (vMatch v) q ++ [Entry.mk item 0],
        (eraseFirstB (vMatch v) q).length + 1) ∧
    (∀ e ∈ q, vMatch v e = false → e ∈ eraseFirstB (vMatch v) q) ∧
    (∀ a b c : Msg,
      a.firstToken = "invalidateviewcursor:" → b.firstToken = "invalidateviewcursor:" →
      c.firstToken = "invalidateviewcursor:" → a.viewIdParse = some "1" →
      b.viewIdParse = some "2" → c.viewIdParse = some "1" →
      enqueueAll false [a, b, c] [] = .ok [Entry.mk b 0, Entry.mk c 0]) := by
  refine ⟨?_, ?_, ?_⟩
  · exact enqueue_ok_of_dedup item q _ 0 (deduplicate_ivc item v q hTok hParse hInv)
  · intro e he hv
    exact mem_eraseFirstB_of_not (vMatch v) q e he hv
  · intro a b c ta tb tc pa pb pc
    have inv1 : IvcInv [Entry.mk a 0] := by
      intro e he htok
      rw [List.mem_singleton] at he
      subst he
      exact ⟨"1", pa⟩
    have inv2 : IvcInv [Entry.mk a 0, Entry.mk b 0] := by
      intro e he htok
      rcases List.mem_cons.mp he with h | h
      · subst h
        exact ⟨"1", pa⟩
      · rw [List.mem_singleton] at h
        subst h
        exact ⟨"2", pb⟩
    have hd1 := deduplicate_ivc a "1" [] ta pa (by intro e he; cases he)
    rw [show eraseFirstB (vMatch "1") [] = [] from rfl] at hd1
    have e1 := enqueue_ok_of_dedup a [] [] 0 hd1
    have hd2 := deduplicate_ivc b "2" [Entry.mk a 0] tb pb inv1
    rw [show eraseFirstB (vMatch "2") [Entry.mk a 0] = [Entry.mk a 0] by
      simp [eraseFirstB, vMatch, ta, pa]] at hd2
    have e2 := enqueue_ok_of_dedup b [Entry.mk a 0] [Entry.mk a 0] 0 hd2
    have hd3 := deduplicate_ivc c "1" [Entry.mk a 0, Entry.mk b 0] tc pc inv2
    rw [show eraseFirstB (vMatch "1") [Entry.mk a 0, Entry.mk b 0] = [Entry.mk b 0] by
      simp [eraseFirstB, vMatch, ta, pa]] at hd3
    have e3 := enqueue_ok_of_dedup c [Entry.mk a 0, Entry.mk b 0] [Entry.mk b 0] 0 hd3
    simp [enqueueAll, e1, e2, e3]

/-- Witness for C7 at a concrete input: views "1", "2", then "1" again end
with one entry per view, each the latest for its view. -/
theorem viewcursor_isolation_witness :
    wIvc1.viewIdParse = some "1" ∧ wIvc2.viewIdParse = some "2" ∧
    wIvc1b.viewIdParse = some "1" ∧
    enqueueAll false [wIvc1, wIvc2, wIvc1b] [] = .ok [Entry.mk wIvc2 0, Entry.mk wIvc1b 0] := by
  refine ⟨rfl, rfl, rfl, ?_⟩
  exact (viewcursor_isolation wIvc1 "1" [] rfl rfl (by intro e he; cases he)).2.2
    wIvc1 wIvc2 wIvc1b rfl rfl rfl rfl rfl rfl

/-- C8, cursor/part replace-latest: an `invalidatecursor:` or `setpart:`
message removes exactly the first queued message with the same command token
(and nothing else: non-matching entries survive) before being appended; in
the scenario cursor, cursor, unrelated, cursor the final queue holds exactly
the unrelated message and the last cursor message, in that order. -/
theorem cursor_part_replace_latest (item : Msg) (q : List Entry)
    (hTok : item.firstToken = "invalidatecursor:" ∨ item.firstToken = "setpart:") :
    enqueue false item q =
      .ok (eraseFirstB (cursorMatch item.firstToken) q ++ [Entry.mk item 0],
        (eraseFirstB (cursorMatch item.firstToken) q).length + 1) ∧
    (∀ e ∈ q, cursorMatch item.firstToken e = false →
      e ∈ eraseFirstB (cursorMatch item.firstToken) q) ∧
    (∀ c1 c2 u c3 : Msg,
      c1.firstToken = "invalidatecursor:" → c2.firstToken = "invalidatecursor:" →
      c3.firstToken = "invalidatecursor:" →
      u.firstToken ∉ (["tile:", "invalidatecursor:", "setpart:", "progress:",
        "invalidateviewcursor:"] : List String) →
      enqueueAll false [c1, c2, u, c3] [] = .ok [Entry.mk u 0, Entry.mk c3 0]) := by
  refine ⟨?_, ?_, ?_⟩
  · exact enqueue_ok_of_dedup item q _ 0 (deduplicate_cursor item q hTok)
  · intro e he hm
    exact mem_eraseFirstB_of_not (cursorMatch item.firstToken) q e he hm
  · intro c1 c2 u c3 t1 t2 t3 hu
    simp only [List.mem_cons, List.mem_singleton, not_or] at hu
    obtain ⟨u1, u2, u3, u4, u5, -⟩ := hu
    have hd1 := deduplicate_cursor c1 [] (Or.inl t1)
    rw [show eraseFirstB (cursorMatch c1.firstToken) [] = [] from rfl] at hd1
    have e1 := enqueue_ok_of_dedup c1 [] [] 0 hd1
    have hd2 := deduplicate_cursor c2 [Entry.mk c1 0] (Or.inl t2)
    rw [show eraseFirstB (cursorMatch c2.firstToken) [Entry.mk c1 0] = [] by
      simp [eraseFirstB, cursorMatch, t1, t2]] at hd2
    have e2 := enqueue_ok_of_dedup c2 [Entry.mk c1 0] [] 0 hd2
    have hd3 := deduplicate_other u [Entry.mk c2 0] u1 u2 u3 u4 u5
    have e3 := enqueue_ok_of_dedup u [Entry.mk c2 0] [Entry.mk c2 0] 0 hd3
    have hd4 := deduplicate_cursor c3 [Entry.mk c2 0, Entry.mk u 0] (Or.inl t3)
    rw [show eraseFirstB (cursorMatch c3.firstToken) [Entry.mk c2 0, Entry.mk u 0] =
        [Entry.mk u 0] by simp [eraseFirstB, cursorMatch, t2, t3]] at hd4
    have e4 := enqueue_ok_of_dedup c3 [Entry.mk c2 0, Entry.mk u 0] [Entry.mk u 0] 0 hd4
    simp [enqueueAll, e1, e2, e3, e4]

/-- Witness for C8 at a concrete input: cursor, cursor, unrelated, cursor
leaves exactly the unrelated message and the last cursor message. -/
theorem cursor_part_replace_witness :
    wCur.firstToken = "invalidatecursor:" ∧
    wOtherA.firstToken ∉ (["tile:", "invalidatecursor:", "setpart:", "progress:",
      "invalidateviewcursor:"] : List String) ∧
    enqueueAll false [wCur, wCur, wOtherA, wCur] [] =
      .ok [Entry.mk wOtherA 0, Entry.mk wCur 0] := by
  refine ⟨rfl, by decide, ?_⟩
  exact (cursor_part_replace_latest wCur [] (Or.inl rfl)).2.2 wCur wCur wOtherA wCur
    rfl rfl rfl (by decide)

/-- Counterexample to C9 as stated: a single text message with empty
abbreviated content at the head of the queue is folded into a repeats marker
by `dumpState` although it repeats no preceding entry (the report's previous
string starts out empty), so the report lists no entry line for it. -/
theorem dumpState_collapse_cex :
    enqueue false eEmpty [] = .ok ([Entry.mk eEmpty 0], 1) ∧
    (dumpState [Entry.mk eEmpty 0]).lines = [DumpLine.repeatsLine 1] ∧
    ((dumpState [Entry.mk eEmpty 0]).lines).countP isEntryLine = 0 :=
  ⟨rfl, rfl, rfl⟩

/-- C9 amended, dumpState is purely diagnostic: the queue is left unchanged
(subsequent dequeue and size calls behave as without the call); every binary
message is listed by its own entry line (binary messages are never
collapsed); no message is lost (entry lines plus repeats counts cover the
queue); and an item is collapsed into a repeat run exactly when it is a text
item whose abbreviated content equals the previously listed string, which
starts as the empty string. -/
theorem dumpState_diagnostic (q : List Entry) (flag : Bool) :
    (dumpState q).queueAfter = q ∧
    dequeue flag (dumpState q).queueAfter = dequeue flag q ∧
    size (dumpState q).queueAfter = size q ∧
    (dumpState q).itemCount = q.length ∧
    ((dumpState q).lines).countP isBinLine = q.countP (fun e => e.msg.isBinary) ∧
    ((dumpState q).lines).countP isEntryLine + repeatsSum ((dumpState q).lines) = q.length ∧
    (∀ (e : Entry) (es : List Entry) (r : Nat) (lastStr : String),
      e.msg.isBinary = true ∨ lastStr ≠ e.msg.abbreviated →
      dumpLoop (e :: es) r lastStr =
        (if r > 0 then [DumpLine.repeatsLine r] else [])
          ++ DumpLine.entryLine e.msg.isBinary e.msg.id e.msg.abbreviated
            :: dumpLoop es 0 e.msg.abbreviated) ∧
    (∀ (e : Entry) (es : List Entry) (r : Nat),
      e.msg.isBinary = false →
      dumpLoop (e :: es) r e.msg.abbreviated = dumpLoop es (r + 1) e.msg.abbreviated) := by
  refine ⟨rfl, rfl, rfl, rfl, dumpLoop_binCount q 0 "", ?_, ?_, ?_⟩
  · have h := dumpLoop_conservation q 0 ""
    simpa using h
  · intro e es r lastStr h
    simp only [dumpLoop]
    rw [if_neg (fun hc => by rcases h with h | h <;> simp [h] at hc)]
  · intro e es r h
    simp [dumpLoop, h]

/-- Witness for the amended C9 at a concrete input: a binary message is
always listed by its own entry line, never folded into a repeat run. -/
theorem dumpState_diagnostic_witness :
    (wBin.isBinary = true ∨ ("" : String) ≠ wBin.abbreviated) ∧
    dumpLoop [Entry.mk wBin 0] 0 "" =
      (if (0 : Nat) > 0 then [DumpLine.repeatsLine 0] else [])
        ++ DumpLine.entryLine wBin.isBinary wBin.id wBin.abbreviated
          :: dumpLoop [] 0 wBin.abbreviated :=
  ⟨Or.inl rfl,
    (dumpState_diagnostic [] false).2.2.2.2.2.2.1 (Entry.mk wBin 0) [] 0 "" (Or.inl rfl)⟩

/-- C10, atomicity of enqueue under a dedup exception: when `deduplicate`
throws, the queue it leaves behind is exactly the original one (nothing was
removed), and `enqueue` propagates the exception before appending the
incoming message. -/
theorem enqueue_atomic_on_dedup_error (item : Msg) (q e : List Entry)
    (h : deduplicate item q = .error e) :
    e = q ∧ enqueue false item q = .error q :=
  ⟨dedup_error_eq item q e h, enqueue_error_of_dedup item q e h⟩

/-- Witness for C10 at a concrete input: an unparsable view-cursor message
makes `deduplicate` throw; `enqueue` propagates with the queue untouched. -/
theorem enqueue_atomic_witness :
    deduplicate badIvc [goodEntry] = .error [goodEntry] ∧
    ([goodEntry] = [goodEntry] ∧ enqueue false badIvc [goodEntry] = .error [goodEntry]) :=
  ⟨rfl, enqueue_atomic_on_dedup_error badIvc [goodEntry] [goodEntry] rfl⟩

/-- The queue a successful `deduplicate` leaves is drawn from the original
queue: no branch adds entries, each at most removes one. -/
theorem dedup_ok_subset (item : Msg) (q q3 : List Entry) (hh : Nat) (b : Bool)
    (hd : deduplicate item q = .ok (q3, hh, b)) : ∀ a ∈ q3, a ∈ q := by
  by_cases h1 : item.firstToken = "tile:"
  · cases hp : item.tileParse with
    | none => simp [deduplicate, h1, hp] at hd
    | some d =>
      simp only [deduplicate, h1, if_true, hp] at hd
      cases he : eraseFirstE (tilePred d d.equalityHash) q with
      | error e =>
        rw [he] at hd
        exact Except.noConfusion hd
      | ok qe =>
        rw [he] at hd
        injection hd with h3
        injection h3 with h4 h5
        subst h4
        exact mem_of_eraseFirstE_ok _ q _ he
  · by_cases h2 : item.firstToken = "invalidatecursor:" ∨ item.firstToken = "setpart:"
    · rw [deduplicate_cursor item q h2] at hd
      injection hd with h3
      injection h3 with h4 h5
      subst h4
      exact fun a ha => mem_of_mem_eraseFirstB _ q a ha
    · by_cases h3 : item.firstToken = "progress:"
      · rw [deduplicate_progress item q h3] at hd
        by_cases ht : item.containsTag = true
        · rw [if_pos ht] at hd
          injection hd with h4
          injection h4 with h5 h6
          subst h5
          exact fun a ha => mem_of_mem_eraseFirstB _ q a ha
        · rw [if_neg ht] at hd
          injection hd with h4
          injection h4 with h5 h6
          subst h5
          exact fun a ha => ha
      · by_cases h4 : item.firstToken = "invalidateviewcursor:"
        · cases hp : item.viewIdParse with
          | none => simp [deduplicate, h1, h2, h3, h4, hp] at hd
          | some v =>
            simp only [deduplicate, h1, h2, h3, h4, hp, if_true, if_false] at hd
            cases he : eraseFirstE (viewPred v) q with
            | error e =>
              rw [he] at hd
              exact Except.noConfusion hd
            | ok qe =>
              rw [he] at hd
              injection hd with h5
              injection h5 with h6 h7
              subst h6
              exact mem_of_eraseFirstE_ok _ q _ he
        · obtain ⟨h2a, h2b⟩ := not_or.mp h2
          rw [deduplicate_other item q h1 h2a h2b h3 h4] at hd
          injection hd with h5
          injection h5 with h6 h7
          subst h6
          exact fun a ha => ha

/-- A `tile:` message that survives `deduplicate` parsed successfully, and
the hash handed to `setHash` is its descriptor's position hash. -/
theorem dedup_ok_tile_hash (item : Msg) (q q3 : List Entry) (hh : Nat) (b : Bool)
    (hd : deduplicate item q = .ok (q3, hh, b)) (h1 : item.firstToken = "tile:") :
    ∃ d, item.tileParse = some d ∧ hh = d.equalityHash := by
  cases hp : item.tileParse with
  | none => simp [deduplicate, h1, hp] at hd
  | some d =>
    refine ⟨d, rfl, ?_⟩
    simp only [deduplicate, h1, if_true, hp] at hd
    cases he : eraseFirstE (tilePred d d.equalityHash) q with
    | error e =>
      rw [he] at hd
      exact Except.noConfusion hd
    | ok qe =>
      rw [he] at hd
      injection hd with h3
      injection h3 with h4 h5
      injection h5 with h6 h7
      exact h6.symm

/-- An `invalidateviewcursor:` message that survives `deduplicate` has a
parseable `viewId`. -/
theorem dedup_ok_ivc_view (item : Msg) (q q3 : List Entry) (hh : Nat) (b : Bool)
    (hd : deduplicate item q = .ok (q3, hh, b))
    (h4 : item.firstToken = "invalidateviewcursor:") :
    ∃ v, item.viewIdParse = some v := by
  cases hp : item.viewIdParse with
  | some v => exact ⟨v, rfl⟩
  | none =>
    have h1 : item.firstToken ≠ "tile:" := by simp [h4]
    have h2 : ¬(item.firstToken = "invalidatecursor:" ∨ item.firstToken = "setpart:") := by
      simp [h4]
    have h3 : item.firstToken ≠ "progress:" := by simp [h4]
    simp [deduplicate, h1, h2, h3, h4, hp] at hd

/-- A successful `enqueue` is a `deduplicate` step followed by the tail
append, and it returns the new queue's size. -/
theorem enqueue_ok_decompose (item : Msg) (q q2 : List Entry) (n : Nat)
    (henq : enqueue false item q = .ok (q2, n)) :
    ∃ q3 hh b, deduplicate item q = .ok (q3, hh, b) ∧
      q2 = (if b then q3 ++ [Entry.mk item hh] else q3) ∧ n = q2.length := by
  simp only [enqueue, Bool.not_false, if_true] at henq
  cases hd : deduplicate item q with
  | error e =>
    rw [hd] at henq
    exact Except.noConfusion henq
  | ok r =>
    obtain ⟨q3, hh, b⟩ := r
    rw [hd] at henq
    simp only at henq
    injection henq with h2
    injection h2 with h3 h4
    exact ⟨q3, hh, b, rfl, h3.symm, by rw [← h3, ← h4]⟩

/-- `enqueue` maintains hash-cache consistency: every queue reachable through
successful enqueues satisfies the hypothesis under which the tile claims are
proved. -/
theorem enqueue_preserves_TileInv (item : Msg) (q q2 : List Entry) (n : Nat)
    (henq : enqueue false item q = .ok (q2, n)) (hInv : TileInv q) : TileInv q2 := by
  obtain ⟨q3, hh, b, hd, hq2, -⟩ := enqueue_ok_decompose item q q2 n henq
  subst hq2
  intro e he htok
  cases b with
  | false => exact hInv e (dedup_ok_subset item q q3 hh false hd e he) htok
  | true =>
    simp only [if_true, List.mem_append, List.mem_singleton] at he
    rcases he with he | he
    · exact hInv e (dedup_ok_subset item q q3 hh true hd e he) htok
    · subst he
      obtain ⟨d, hp, hhash⟩ := dedup_ok_tile_hash item q q3 hh true hd htok
      exact ⟨d, hp, hhash⟩

/-- `enqueue` maintains view-id parseability of queued `invalidateviewcursor:`
messages: every queue reachable through successful enqueues satisfies the
hypothesis under which the view-cursor claim is proved. -/
theorem enqueue_preserves_IvcInv (item : Msg) (q q2 : List Entry) (n : Nat)
    (henq : enqueue false item q = .ok (q2, n)) (hInv : IvcInv q) : IvcInv q2 := by
  obtain ⟨q3, hh, b, hd, hq2, -⟩ := enqueue_ok_decompose item q q2 n henq
  subst hq2
  intro e he htok
  cases b with
  | false => exact hInv e (dedup_ok_subset item q q3 hh false hd e he) htok
  | true =>
    simp only [if_true, List.mem_append, List.mem_singleton] at he
    rcases he with he | he
    · exact hInv e (dedup_ok_subset item q q3 hh true hd e he) htok
    · subst he
      exact dedup_ok_ivc_view item q q3 hh true hd htok
